import Mathlib

/-!
Verification development for the fml2ss core: a shallow embedding of the
wall-to-room pipeline (curve flattening, tolerance-deduplicated vertex graph,
minimal-cycle face tracing, room-record formatting) over exact rationals.

Modelling conventions:
* 2D points are pairs of rationals; the Python code's floating-point
  coordinates are embedded as exact rationals.
* Every Euclidean-norm comparison in the source (`np.linalg.norm p < tol`,
  `>= min_segment_length`, `> 1e-6`) is modelled by the equivalent comparison
  of squared distance against the squared bound; both sides of each such
  source comparison are nonnegative, so the two forms coincide.
* Loops whose termination is not structural are given explicit fuel and
  return `Option`/default values; fallible operations (Python exceptions such
  as `IndexError` on `walk[1]`, `TypeError` from `reduce` on an empty list or
  `int(None)`) are modelled as `none`.
-/

/-- A 2D point with rational coordinates (models a numpy length-2 array). -/
abbrev Point : Type := ℚ × ℚ

/-- Componentwise subtraction of points, as numpy vector subtraction. -/
def psub (a b : Point) : Point := (a.1 - b.1, a.2 - b.2)

/-- Squared Euclidean distance between two points. -/
def sqDist (p q : Point) : ℚ := (p.1 - q.1) ^ 2 + (p.2 - q.2) ^ 2

/-- Tolerance-based vertex identity from `utils.Vertex.__eq__`:
`np.linalg.norm (p - q) < 0.1`, modelled as squared distance `< (1/10)^2`. -/
def veq (p q : Point) : Bool := sqDist p q < 1 / 100

theorem veq_refl (p : Point) : veq p p = true := by
  simp [veq, sqDist]

theorem veq_comm (p q : Point) : veq p q = veq q p := by
  simp only [veq, sqDist]
  ring_nf

/-! ### Curve flattening (`bezier.py`) -/

/-- `quadratic_bezier_point`: `P(t) = (1-t)^2 a + 2(1-t)t c + t^2 b`. -/
def quadratic_bezier_point (a c b : Point) (t : ℚ) : Point :=
  ((1 - t) ^ 2 * a.1 + 2 * (1 - t) * t * c.1 + t ^ 2 * b.1,
   (1 - t) ^ 2 * a.2 + 2 * (1 - t) * t * c.2 + t ^ 2 * b.2)

/-- The inner probing loop of `adaptive_bezier_segments`: starting from step
size `step`, probe `next_t = min 1 (current_t + step)` and double the step
until the chord from `P(current_t)` to `P(next_t)` reaches `min_segment_length`
or `next_t` reaches 1.  The source loop always exits through its break (the
step doubles without bound), so the fuel-exhaustion branch mirrors the final
probe; fuel 100 is never exhausted for the inputs of any theorem below. -/
def findNextT (a c b : Point) (minLen currT : ℚ) : Nat → ℚ → ℚ
  | 0, step => min 1 (currT + step)
  | fuel + 1, step =>
    if minLen ^ 2 ≤ sqDist (quadratic_bezier_point a c b (min 1 (currT + step)))
          (quadratic_bezier_point a c b currT)
        ∨ 1 ≤ min 1 (currT + step) then min 1 (currT + step)
    else findNextT a c b minLen currT fuel (2 * step)

/-- The outer loop of `adaptive_bezier_segments`: while `current_t < 1` and
fewer than `max_segments` segments were emitted, accept the probed `next_t`
(when it advances) and append the curve point there. -/
def bezierAux (a c b : Point) (minLen : ℚ) (maxSeg : Nat) :
    Nat → ℚ → Nat → List Point → List Point
  | 0, _, _, acc => acc
  | fuel + 1, t, count, acc =>
    if t < 1 ∧ count < maxSeg then
      if t < findNextT a c b minLen t 100 (1 / 10) then
        bezierAux a c b minLen maxSeg fuel (findNextT a c b minLen t 100 (1 / 10)) (count + 1)
          (acc ++ [quadratic_bezier_point a c b (findNextT a c b minLen t 100 (1 / 10))])
      else acc
    else acc

/-- `adaptive_bezier_segments`: the accepted points starting from `a`, with the
end point `b` force-appended when the last accepted point is farther than
`1e-6` from `b` (squared comparison against `1/10^12`).  The outer loop starts
at `t = 0` with zero emitted segments; each iteration increments the count, so
fuel `maxSeg + 1` is never exhausted. -/
def adaptive_bezier_segments (a c b : Point) (minLen : ℚ) (maxSeg : Nat) : List Point :=
  let pts := bezierAux a c b minLen maxSeg (maxSeg + 1) 0 0 [a]
  if 1 / 10 ^ 12 < sqDist (pts.getLastD (0, 0)) b then pts ++ [b] else pts

/-! ### Polygon centroid (`he.polygon_centroid`) -/

/-- The accumulator loop of `polygon_centroid`: for each index `i` (with
successor `j = (i+1) % n`) it adds the cross product `x_i y_j - x_j y_i` into
the running `(area, centroid_x, centroid_y)` sums. -/
def centroidSums (vs : List Point) : ℚ × ℚ × ℚ :=
  let n := vs.length
  (List.range n).foldl
    (fun acc i =>
      let p := vs.getD i (0, 0)
      let q := vs.getD ((i + 1) % n) (0, 0)
      let cross := p.1 * q.2 - q.1 * p.2
      (acc.1 + cross, acc.2.1 + (p.1 + q.1) * cross, acc.2.2 + (p.2 + q.2) * cross))
    (0, 0, 0)

/-- The signed polygon area as computed by `polygon_centroid`
(half the shoelace sum). -/
def signedArea (vs : List Point) : ℚ := (centroidSums vs).1 / 2

/-- `polygon_centroid`: `None` for fewer than 3 vertices or when the absolute
signed area is below `1e-10`, otherwise the shoelace centroid. -/
def polygon_centroid (vs : List Point) : Option Point :=
  if vs.length < 3 then none
  else
    let s := centroidSums vs
    let area := s.1 / 2
    if |area| < 1 / 10 ^ 10 then none
    else some (s.2.1 / (6 * area), s.2.2 / (6 * area))

/-- Three points are collinear when the cross product of the two edge vectors
vanishes. -/
def collinear (p q r : Point) : Prop :=
  (q.1 - p.1) * (r.2 - p.2) - (r.1 - p.1) * (q.2 - p.2) = 0

/-! ### The wall graph (`min_cycles.py`) -/

/-- A wall record: the stable identifier and the two endpoint positions parsed
from a `make_wall` command (`utils.Wall`; the derived center/normal/direction
fields are never used by room extraction and are omitted). -/
structure Wall where
  id : Nat
  a : Point
  b : Point
deriving DecidableEq, Repr

/-- The mutable graph state of `extract_rooms_from_screenscript` /
`extract_cycles`.  Python's `Vertex` objects are represented by their index of
creation: `pos` lists the deduplicated positions, `adj` the adjacency lists
(lists of vertex indices), and `act` the remaining-vertices list consumed by
`extract_cycles`.  All vertex comparisons in the source go through the
tolerance equality `Vertex.__eq__`, modelled by `veq` on the positions. -/
structure GState where
  pos : List Point
  adj : List (List Nat)
  act : List Nat
deriving DecidableEq, Repr

/-- Position of vertex `i` (indices produced by the pipeline are in range;
the default is never hit there). -/
def posOf (g : GState) (i : Nat) : Point := g.pos.getD i (0, 0)

/-- Adjacency list of vertex `i`. -/
def adjOf (g : GState) (i : Nat) : List Nat := g.adj.getD i []

/-- One `if endpoint not in vertices: vertices.append(endpoint)` step of
graph construction (membership is tolerance equality). -/
def addVertex (vs : List Point) (p : Point) : List Point :=
  if vs.any (fun v => veq v p) then vs else vs ++ [p]

/-- Endpoint deduplication from `extract_rooms_from_screenscript`: walk the
walls in order and append each endpoint (`a` then `b`) to the vertex list
unless a tolerance-equal vertex is already present. -/
def collectVertices (walls : List Wall) : List Point :=
  walls.foldl (fun vs w => addVertex (addVertex vs w.a) w.b) []

/-- `vertices.index(endpoint)`: index of the first tolerance-equal vertex. -/
def vertexIndex (vs : List Point) (p : Point) : Nat :=
  vs.findIdx (fun v => veq v p)

/-- The edge list `[vertices.index(wall.a), vertices.index(wall.b)]`. -/
def wallEdges (walls : List Wall) (vs : List Point) : List (Nat × Nat) :=
  walls.map (fun w => (vertexIndex vs w.a, vertexIndex vs w.b))

/-- One edge insertion: append `e.2` to `adj[e.1]`, then `e.1` to the
(possibly just-updated) `adj[e.2]` — so a merged degenerate wall appends its
vertex to its own adjacency twice. -/
def addEdge (adj : List (List Nat)) (e : Nat × Nat) : List (List Nat) :=
  (adj.set e.1 (adj.getD e.1 [] ++ [e.2])).set e.2
    ((adj.set e.1 (adj.getD e.1 [] ++ [e.2])).getD e.2 [] ++ [e.1])

/-- Adjacency construction: insert every edge into an initially empty
adjacency table. -/
def buildAdj (n : Nat) (edges : List (Nat × Nat)) : List (List Nat) :=
  edges.foldl addEdge (List.replicate n [])

/-- Graph construction from the wall records (lines 90-105 of
`min_cycles.py`). -/
def graphOfWalls (walls : List Wall) : GState :=
  { pos := collectVertices walls
    adj := buildAdj (collectVertices walls).length (wallEdges walls (collectVertices walls))
    act := List.range (collectVertices walls).length }

/-! ### Face tracing (`min_cycles.extract_cycles` and helpers) -/

/-- The `reduce` lambda of `left_bottom_vertex` (`m` is the accumulator, `v`
the new vertex): take the new vertex on strictly smaller x; keep the
accumulator on strictly larger x; on equal x keep the accumulator when the
new vertex has strictly smaller y, and otherwise take the new vertex. -/
def lbStep (pos : List Point) (m v : Nat) : Nat :=
  if (pos.getD v (0, 0)).1 < (pos.getD m (0, 0)).1 then v
  else if (pos.getD m (0, 0)).1 < (pos.getD v (0, 0)).1 then m
  else if (pos.getD v (0, 0)).2 < (pos.getD m (0, 0)).2 then m
  else v

/-- `left_bottom_vertex`: `reduce` of `lbStep` over the remaining vertices.
`none` models `reduce` over an empty list (a `TypeError`). -/
def left_bottom_vertex (pos : List Point) (act : List Nat) : Option Nat :=
  match act with
  | [] => none
  | h :: t => some (t.foldl (lbStep pos) h)

/-- `dot_perp`: the 2D cross product `a.x * b.y - a.y * b.x`. -/
def dot_perp (a b : Point) : ℚ := a.1 * b.2 - a.2 * b.1

/-- `better_by_kind`: decides between candidate `v` and the best-so-far using
sign comparisons of cross products against the incoming direction `dCurr`.
`ccw = false` is the source's `'cw'` kind. -/
def better_by_kind (g : GState) (v vSoFar vCurr : Nat) (dCurr : Point) (ccw : Bool) : Nat :=
  let d := psub (posOf g v) (posOf g vCurr)
  let dSoFar := psub (posOf g vSoFar) (posOf g vCurr)
  let isConvex : Bool := dot_perp dSoFar dCurr > 0
  let curr2v := dot_perp dCurr d
  let vsf2v := dot_perp dSoFar d
  let vIsBetter : Bool :=
    if ccw then
      (!isConvex && (curr2v < 0 || vsf2v < 0)) || (isConvex && curr2v < 0 && vsf2v < 0)
    else
      (isConvex && (curr2v ≥ 0 || vsf2v ≥ 0)) || (!isConvex && curr2v ≥ 0 && vsf2v ≥ 0)
  if vIsBetter then v else vSoFar

/-- `best_by_kind`: with a previous vertex the incoming direction is
`curr - prev` and the previous vertex is filtered out of the candidates
(by tolerance equality); without one the synthetic incoming direction is
`(0, -1)`.  `reduce` over the candidates is a `foldl` with the first
candidate as accumulator; `none` models `reduce` on an empty candidate
list (a `TypeError`). -/
def best_by_kind (g : GState) (vPrev : Option Nat) (vCurr : Nat) (ccw : Bool) : Option Nat :=
  let dCurr : Point :=
    match vPrev with
    | some p => psub (posOf g vCurr) (posOf g p)
    | none => (0, -1)
  let cand : List Nat :=
    match vPrev with
    | some p => (adjOf g vCurr).filter (fun w => !(veq (posOf g w) (posOf g p)))
    | none => adjOf g vCurr
  match cand with
  | [] => none
  | h :: t => some (t.foldl (fun vsf v => better_by_kind g v vsf vCurr dCurr ccw) h)

/-- `get_next`: the single neighbor when the degree is 1, otherwise the
angular extreme; the kind is `'ccw'` exactly when a previous vertex exists.
Returns the pair `(next, v)` — the new previous vertex is `v`. -/
def get_next (g : GState) (v : Nat) (prev : Option Nat) : Option (Nat × Nat) :=
  if (adjOf g v).length = 1 then some ((adjOf g v).headD 0, v)
  else (best_by_kind g prev v prev.isSome).map (fun nx => (nx, v))

/-- The `while curr != v` loop of `closed_walk_from` (tolerance comparison
with the start vertex), with fuel for the unbounded loop. -/
def closedWalkAux (g : GState) (v : Nat) : Nat → Nat → Nat → Option (List Nat)
  | 0, _, _ => none
  | fuel + 1, curr, prev =>
    if veq (posOf g curr) (posOf g v) then some []
    else do
      let (nx, _) ← get_next g curr (some prev)
      let rest ← closedWalkAux g v fuel nx curr
      some (curr :: rest)

/-- `closed_walk_from`: start the walk at `v` with no previous vertex and
walk until the tolerance-equality test against `v` closes it. -/
def closed_walk_from (g : GState) (fuel : Nat) (v : Nat) : Option (List Nat) := do
  let (first, _) ← get_next g v none
  let rest ← closedWalkAux g v fuel first v
  some (v :: rest)

/-- One step of the `reduce_walk` loop body at index `i`: `w.index(w[i])` is
the first tolerance-equal occurrence, and the splice fires only when that
first occurrence lies strictly beyond `i` (which never happens — `w[i]`
itself matches at `i`).  Out-of-range access models Python's `IndexError`. -/
def reduceWalkStep (pos : List Point) (w : List Nat) (i : Nat) : Option (List Nat) :=
  match w.get? i with
  | none => none
  | some x =>
    let idup := w.findIdx (fun y => veq (pos.getD y (0, 0)) (pos.getD x (0, 0)))
    if i < idup then some (w.take (i + 1) ++ w.drop idup) else some w

/-- `reduce_walk`: the `for i in range(1, len(w))` loop (the range is fixed at
entry to the original length). -/
def reduce_walk (pos : List Point) (w : List Nat) : Option (List Nat) :=
  (List.range' 1 (w.length - 1)).foldlM (reduceWalkStep pos) w

/-- `remove_edge`: drop every tolerance-equal occurrence of the other
endpoint from each adjacency list (two sequential updates, as in the
source). -/
def remove_edge (g : GState) (i j : Nat) : GState :=
  { pos := g.pos
    adj := (g.adj.set i ((adjOf g i).filter (fun k => !(veq (posOf g k) (posOf g j))))).set j
      (((g.adj.set i ((adjOf g i).filter
          (fun k => !(veq (posOf g k) (posOf g j))))).getD j []).filter
        (fun k => !(veq (posOf g k) (posOf g i))))
    act := g.act }

/-- `without_vertex`: filter a tolerance-equal vertex out of the
remaining-vertices list. -/
def without_vertex (pos : List Point) (v : Nat) (act : List Nat) : List Nat :=
  act.filter (fun k => !(veq (pos.getD k (0, 0)) (pos.getD v (0, 0))))

/-- The `while current and len(current.adj) < 2` loop of
`remove_filament_at`: drop the current vertex from the remaining list, follow
its single neighbor (if any) after disconnecting it, and continue. -/
def removeFilamentAux : Nat → GState → Option Nat → GState
  | 0, g, _ => g
  | _, g, none => g
  | fuel + 1, g, some c =>
    if (adjOf g c).length < 2 then
      match (adjOf g c).head? with
      | some nx =>
        removeFilamentAux fuel (remove_edge { g with act := without_vertex g.pos c g.act } c nx)
          (some nx)
      | none => { g with act := without_vertex g.pos c g.act }
    else g

/-- `remove_filament_at`. -/
def remove_filament_at (g : GState) (fuel : Nat) (v : Nat) : GState :=
  removeFilamentAux fuel g (some v)

/-- The outer loop of `extract_cycles`: pick the left-bottom remaining
vertex, trace and reduce a closed walk, record it when longer than 2,
disconnect the walk's first edge and prune filaments from both of its
endpoints.  `none` models the source's unhandled exceptions (`IndexError` on
`walk[1]` for a one-vertex walk, `TypeError` from `reduce` on an empty
sequence) and nontermination (fuel exhaustion). -/
def extractCyclesAux (fuel : Nat) : GState → Nat → List (List Nat) → Option (List (List Nat))
  | _, 0, _ => none
  | g, n + 1, cycles =>
    match g.act with
    | [] => some cycles
    | _ :: _ => do
      let v ← left_bottom_vertex g.pos g.act
      let raw ← closed_walk_from g fuel v
      let walk ← reduce_walk g.pos raw
      let cycles := if 2 < walk.length then cycles ++ [walk] else cycles
      match walk with
      | w0 :: w1 :: _ =>
        let g := remove_edge g w0 w1
        let g := remove_filament_at g fuel w0
        let g := remove_filament_at g fuel w1
        extractCyclesAux fuel g n cycles
      | _ => none

/-- Generous fuel: every outer iteration removes at least one adjacency
entry, and walks visit at most one vertex per remaining edge-slot, so a
polynomial of the wall count bounds every loop of the source on inputs where
it terminates. -/
def fuelOf (walls : List Wall) : Nat := (walls.length + 2) * (walls.length + 2) * 8

/-- `extract_cycles` applied to the initial graph of a wall list. -/
def extract_cycles (walls : List Wall) : Option (List (List Nat)) :=
  let g := graphOfWalls walls
  extractCyclesAux (fuelOf walls) g (fuelOf walls) []

/-- `find_wall`: the id of the first wall whose endpoints tolerance-match the
given pair in either order. -/
def find_wall (walls : List Wall) (pa pb : Point) : Option Nat :=
  match walls.find? (fun w =>
      (veq w.a pa && veq w.b pb) || (veq w.a pb && veq w.b pa)) with
  | some w => some w.id
  | none => none

/-- Map one traced cycle to its wall ids: each consecutive vertex pair (with
wraparound) is resolved through `find_wall`; an unresolved pair is Python's
`int(None)` `TypeError`, modelled as `none`. -/
def cycleWallIds (walls : List Wall) (pos : List Point) (c : List Nat) : Option (List Nat) :=
  (List.range c.length).mapM (fun i =>
    find_wall walls (pos.getD (c.getD i 0) (0, 0)) (pos.getD (c.getD ((i + 1) % c.length) 0) (0, 0)))

/-- The per-room wall-id lists of the full pipeline. -/
def extractRoomIdLists (walls : List Wall) : Option (List (List Nat)) := do
  let cycles ← extract_cycles walls
  cycles.mapM (cycleWallIds walls (collectVertices walls))

/-- The formatted room record for (0-based) room index `cid`:
`make_room, id=<9000+cid>, wall_ids=<ids joined by dashes>`. -/
def mkRoomLine (cid : Nat) (ids : List Nat) : String :=
  "make_room, id=" ++ toString (9000 + cid) ++ ", wall_ids=" ++
    String.intercalate ("-") (ids.map toString)

/-- `extract_rooms_from_screenscript` (on already-parsed wall records): the
ordered list of formatted room commands. -/
def extract_rooms_from_screenscript (walls : List Wall) : Option (List String) :=
  (extractRoomIdLists walls).map (fun idss => idss.enum.map (fun p => mkRoomLine p.1 p.2))

/-! ### Cyclic equivalence of wall-id lists -/

/-- All rotations of a list. -/
def rotations (l : List Nat) : List (List Nat) :=
  (List.range l.length).map (fun k => l.drop k ++ l.take k)

/-- Two wall-id cycles are the same up to rotation and direction. -/
def cyclicEquiv (l1 l2 : List Nat) : Bool :=
  (rotations l1).contains l2 || (rotations l1.reverse).contains l2

/-! ### Concrete wall sets used by the claims -/

/-- The simple unit square `w0..w3`. -/
def squareWalls : List Wall :=
  [⟨0, (0, 0), (1, 0)⟩, ⟨1, (1, 0), (1, 1)⟩, ⟨2, (1, 1), (0, 1)⟩, ⟨3, (0, 1), (0, 0)⟩]

/-- The unit square plus a dangling stub wall from `(1,0)` to `(2,0)`. -/
def squareStubWalls : List Wall := squareWalls ++ [⟨4, (1, 0), (2, 0)⟩]

/-- Two collinear walls `(0,0)-(1,0)` and `(1,0)-(2,0)` (a path, no face). -/
def pathWalls : List Wall := [⟨0, (0, 0), (1, 0)⟩, ⟨1, (1, 0), (2, 0)⟩]

/-- A near-square whose lower-left corner is written `(4/25, 0)` by wall 0 and
`(0, 0)` by wall 3, plus a stub hanging from `(2/25, 0)`: the three x-values
are pairwise within chains of the 0.1 tolerance but the extremes are not. -/
def chainWallsA : List Wall :=
  [⟨0, (4/25, 0), (1, 0)⟩, ⟨1, (1, 0), (1, 1)⟩, ⟨2, (1, 1), (0, 1)⟩,
   ⟨3, (0, 1), (0, 0)⟩, ⟨4, (2/25, 0), (2/25, -1)⟩]

/-- The same five walls with the stub wall moved to the front. -/
def chainWallsB : List Wall :=
  [⟨4, (2/25, 0), (2/25, -1)⟩, ⟨0, (4/25, 0), (1, 0)⟩, ⟨1, (1, 0), (1, 1)⟩,
   ⟨2, (1, 1), (0, 1)⟩, ⟨3, (0, 1), (0, 0)⟩]

/-! ### `reduce_walk` is the identity -/

theorem findIdx_le_of_get? {α : Type} {p : α → Bool} :
    ∀ {l : List α} {i : Nat} {x : α}, l.get? i = some x → p x = true → l.findIdx p ≤ i := by
  intro l
  induction l with
  | nil => intro i x h _; simp at h
  | cons a t ih =>
    intro i x h hp
    cases i with
    | zero =>
      rw [List.get?_cons_zero] at h
      injection h with h
      subst h
      simp [List.findIdx_cons, hp]
    | succ n =>
      rw [List.get?_cons_succ] at h
      rw [List.findIdx_cons]
      by_cases ha : p a
      · simp [ha]
      · have ha' : p a = false := by simpa using ha
        simp only [ha', cond_false]
        have := ih h hp
        omega

theorem reduceWalkStep_id (pos : List Point) (w : List Nat) (i : Nat) (h : i < w.length) :
    reduceWalkStep pos w i = some w := by
  unfold reduceWalkStep
  have hg : w.get? i = some (w.get ⟨i, h⟩) := List.get?_eq_get h
  rw [hg]
  have hle : w.findIdx
      (fun y => veq (pos.getD y (0, 0)) (pos.getD (w.get ⟨i, h⟩) (0, 0))) ≤ i :=
    findIdx_le_of_get? hg (veq_refl _)
  simp only [Nat.not_lt.mpr hle, if_false]

theorem reduce_walk_id (pos : List Point) (w : List Nat) : reduce_walk pos w = some w := by
  unfold reduce_walk
  have key : ∀ l : List Nat, (∀ i ∈ l, i < w.length) →
      l.foldlM (reduceWalkStep pos) w = some w := by
    intro l
    induction l with
    | nil => intro _; rfl
    | cons a t ih =>
      intro hb
      have ha : a < w.length := hb a (List.mem_cons_self a t)
      simp only [List.foldlM_cons, reduceWalkStep_id pos w a ha]
      exact ih (fun i hi => hb i (List.mem_cons_of_mem a hi))
  apply key
  intro i hi
  have := List.mem_range'_1.mp hi
  omega

/-! ### Claim theorems: concrete and counterexample results -/

/-- C1 (code bug): `reduce_walk` never collapses anything — its duplicate
search `w.index(w[i])` finds the first tolerance-equal occurrence, which is
always at or before `i`, so the splice condition `idup > i` never fires and
the function is the identity.  Consequently a returned cycle can repeat a
vertex: on the two collinear walls `(0,0)-(1,0)`, `(1,0)-(2,0)` the traced
closed walk is `[v0, v1, v2, v1]`, which visits vertex 1 (the point `(1,0)`)
twice, survives `reduce_walk` unchanged, and is returned as a cycle. -/
theorem c1_returned_cycle_repeats_vertex :
    (∀ (pos : List Point) (w : List Nat), reduce_walk pos w = some w) ∧
    extract_cycles pathWalls = some [[0, 1, 2, 1]] ∧
    [0, 1, 2, 1].count 1 = 2 := by
  refine ⟨reduce_walk_id, ?_, by decide⟩
  with_unfolding_all decide

/-- C2 counterexample: with the two remaining vertices `(0,0)` and `(0,1)`
(equal smallest x-coordinate), `left_bottom_vertex` returns index 1, the
vertex with the *largest* y-coordinate, not index 0 with the smallest y
as the claim states. -/
theorem c2_left_bottom_counterexample :
    left_bottom_vertex [((0 : ℚ), (0 : ℚ)), ((0 : ℚ), (1 : ℚ))] [0, 1] = some 1 ∧
    some 1 ≠ some 0 := by
  constructor
  · with_unfolding_all decide
  · decide

/-- C3 counterexample: for `a=(0,0)`, `c=(1,1)`, `b=(2,0)`, minimum chord
length `1/2` and `max_segments = 1`, the output has 3 points — the start, one
accepted point (hitting the segment cap), and the force-appended endpoint —
exceeding the claimed bound `max_segments + 1 = 2`. -/
theorem c3_bezier_exceeds_cap_counterexample :
    (adaptive_bezier_segments ((0 : ℚ), (0 : ℚ)) (1, 1) (2, 0) (1 / 2) 1).length = 3 ∧
    ¬ (adaptive_bezier_segments ((0 : ℚ), (0 : ℚ)) (1, 1) (2, 0) (1 / 2) 1).length ≤ 1 + 1 := by
  constructor
  · with_unfolding_all decide
  · with_unfolding_all decide

/-- C4: the unit square plus the dangling stub `(1,0)-(2,0)` yields exactly
one room; its wall-id cycle `[2,1,0,3]` is a rotation of the reversal of
`[0,1,2,3]`, and the stub id 4 appears in no room's wall-id list. -/
theorem c4_square_with_stub_single_room :
    extractRoomIdLists squareStubWalls = some [[2, 1, 0, 3]] ∧
    cyclicEquiv [2, 1, 0, 3] [0, 1, 2, 3] = true ∧
    [2, 1, 0, 3].contains 4 = false := by
  refine ⟨?_, by decide, by decide⟩
  with_unfolding_all decide

/-- C5 counterexample: a single wall whose endpoints `(0,0)` and `(1/20,0)`
are within the 0.1 tolerance is *not* excluded from graph construction: both
endpoints merge into vertex 0 and the edge loop appends vertex 0 to its own
adjacency twice (`adj = [[0,0]]`), and the extraction run then fails (the
closed walk degenerates to the single vertex `[0]` and `remove_edge` reads
the out-of-range `walk[1]`, an `IndexError`, modelled as `none`). -/
theorem c5_degenerate_wall_counterexample :
    veq ((0 : ℚ), (0 : ℚ)) (1 / 20, 0) = true ∧
    (graphOfWalls [⟨0, (0, 0), (1 / 20, 0)⟩]).adj = [[0, 0]] ∧
    extract_rooms_from_screenscript [⟨0, (0, 0), (1 / 20, 0)⟩] = none := by
  refine ⟨by with_unfolding_all decide, by with_unfolding_all decide, ?_⟩
  with_unfolding_all decide

/-- C6 counterexample: `chainWallsB` is a permutation of `chainWallsA`
(the stub wall moved to the front), yet the two runs return different room
sets: order A merges `(2/25,0)` into the vertex `(4/25,0)` leaving the square
corner `(0,0)` unconnected (a tree, traced as the 8-step degenerate cycle
`2-1-0-4-4-0-1-2`), while order B merges all three near-collinear endpoints
into `(2/25,0)` and closes the square (room `2-1-0-3`).  The two wall-id
cycles are not equal up to rotation and direction (their lengths differ). -/
theorem c6_permutation_counterexample :
    List.Perm chainWallsA chainWallsB ∧
    extractRoomIdLists chainWallsA = some [[2, 1, 0, 4, 4, 0, 1, 2]] ∧
    extractRoomIdLists chainWallsB = some [[2, 1, 0, 3]] ∧
    cyclicEquiv [2, 1, 0, 4, 4, 0, 1, 2] [2, 1, 0, 3] = false := by
  refine ⟨by with_unfolding_all decide, ?_, ?_, by decide⟩
  · with_unfolding_all decide
  · with_unfolding_all decide

/-- C6 amended: extraction is a pure function of the ordered wall list, so
running it twice on an identical wall set (same order) trivially yields the
same room commands; the permutation-invariance part of the claim is refuted
by `c6_permutation_counterexample`. -/
theorem c6_same_input_determinism (walls : List Wall) :
    extract_rooms_from_screenscript walls = extract_rooms_from_screenscript walls := rfl

/-- C8: the pipeline emits, for the i-th (0-based) traced room, exactly the
line `make_room, id=<9000+i>, wall_ids=<ids joined by dashes>`, and on the
simple unit square it emits the single line
`make_room, id=9000, wall_ids=2-1-0-3`, whose id cycle `[2,1,0,3]` is a
rotation of the reversal of `[0,1,2,3]`. -/
theorem c8_room_line_format_and_square :
    (∀ (walls : List Wall) (idss : List (List Nat)),
      extractRoomIdLists walls = some idss →
      extract_rooms_from_screenscript walls =
        some (idss.enum.map (fun p => mkRoomLine p.1 p.2))) ∧
    extract_rooms_from_screenscript squareWalls =
      some ["make_room, id=9000, wall_ids=2-1-0-3"] ∧
    cyclicEquiv [2, 1, 0, 3] [0, 1, 2, 3] = true := by
  refine ⟨?_, ?_, by decide⟩
  · intro walls idss h
    unfold extract_rooms_from_screenscript
    rw [h]
    rfl
  · with_unfolding_all decide

/-- C8 witness: the format clause applied to the concrete unit square. -/
theorem c8_room_line_format_and_square_witness :
    extract_rooms_from_screenscript squareWalls =
      some (([[ 2, 1, 0, 3 ]] : List (List Nat)).enum.map (fun p => mkRoomLine p.1 p.2)) :=
  c8_room_line_format_and_square.1 squareWalls [[2, 1, 0, 3]] (by with_unfolding_all decide)

/-- C10: tolerance-based vertex identity is not transitive — `(0,0)` matches
`(2/25,0)` and `(2/25,0)` matches `(4/25,0)` but `(0,0)` does not match
`(4/25,0)` — and therefore endpoint deduplication depends on wall order: the
same two walls produce 3 deduplicated vertices in one order and 2 in the
other. -/
theorem c10_tolerance_not_transitive :
    veq ((0 : ℚ), (0 : ℚ)) (2/25, 0) = true ∧
    veq ((2/25 : ℚ), (0 : ℚ)) (4/25, 0) = true ∧
    veq ((0 : ℚ), (0 : ℚ)) (4/25, 0) = false ∧
    collectVertices [⟨0, (0, 0), (4/25, 0)⟩, ⟨1, (2/25, 0), (5, 5)⟩] =
      [(0, 0), (4/25, 0), (5, 5)] ∧
    collectVertices [⟨1, (2/25, 0), (5, 5)⟩, ⟨0, (0, 0), (4/25, 0)⟩] =
      [(2/25, 0), (5, 5)] := by
  refine ⟨?_, ?_, ?_, ?_, ?_⟩ <;> with_unfolding_all decide

/-! ### C9: degenerate centroid -/

/-- C9: `polygon_centroid` returns the explicit undefined result `none`
whenever the computed signed area is smaller than `1e-10` in absolute value —
in particular for any three collinear vertices, whose shoelace sum is exactly
zero.  (The model is total: no other outcome than `none`/`some` exists, so no
exception can escape.) -/
theorem c9_centroid_degenerate_none :
    (∀ vs : List Point, |signedArea vs| < 1 / 10 ^ 10 → polygon_centroid vs = none) ∧
    (∀ p q r : Point, collinear p q r → polygon_centroid [p, q, r] = none) := by
  have h1 : ∀ vs : List Point, |signedArea vs| < 1 / 10 ^ 10 → polygon_centroid vs = none := by
    intro vs h
    unfold polygon_centroid
    split
    · rfl
    · simp only [signedArea] at h
      rw [if_pos h]
  refine ⟨h1, ?_⟩
  intro p q r hcol
  apply h1
  have hfold : (centroidSums [p, q, r]).1 =
      0 + (p.1 * q.2 - q.1 * p.2) + (q.1 * r.2 - r.1 * q.2) + (r.1 * p.2 - p.1 * r.2) := by
    with_unfolding_all rfl
  have harea : signedArea [p, q, r] = 0 := by
    have hsum : (centroidSums [p, q, r]).1 =
        (q.1 - p.1) * (r.2 - p.2) - (r.1 - p.1) * (q.2 - p.2) := by
      rw [hfold]; ring
    unfold signedArea
    rw [hsum, hcol]
    norm_num
  rw [harea]
  norm_num

/-- C9 witness: the collinear triple `(0,0), (1,1), (2,2)`. -/
theorem c9_centroid_degenerate_none_witness :
    collinear ((0 : ℚ), (0 : ℚ)) (1, 1) (2, 2) ∧
    polygon_centroid [((0 : ℚ), (0 : ℚ)), (1, 1), (2, 2)] = none := by
  have hcol : collinear ((0 : ℚ), (0 : ℚ)) (1, 1) (2, 2) := by
    unfold collinear; norm_num
  exact ⟨hcol, c9_centroid_degenerate_none.2 _ _ _ hcol⟩

/-! ### C2 amended: the actual start-vertex selection -/

/-- The selection order realised by `lbStep`: `a` beats `b` when `a` has a
smaller-or-equal x-coordinate, with equal x-coordinates only if `b`'s
y-coordinate is at most `a`'s (smallest x, ties to the **largest** y). -/
def lbRel (pos : List Point) (a b : Nat) : Prop :=
  (pos.getD a (0, 0)).1 ≤ (pos.getD b (0, 0)).1 ∧
  ((pos.getD b (0, 0)).1 = (pos.getD a (0, 0)).1 →
    (pos.getD b (0, 0)).2 ≤ (pos.getD a (0, 0)).2)

theorem lbRel_refl (pos : List Point) (a : Nat) : lbRel pos a a :=
  ⟨le_refl _, fun _ => le_refl _⟩

theorem lbRel_trans {pos : List Point} {a b c : Nat}
    (hab : lbRel pos a b) (hbc : lbRel pos b c) : lbRel pos a c := by
  obtain ⟨hx1, hy1⟩ := hab
  obtain ⟨hx2, hy2⟩ := hbc
  refine ⟨le_trans hx1 hx2, fun he => ?_⟩
  have hba : (pos.getD b (0, 0)).1 = (pos.getD a (0, 0)).1 :=
    le_antisymm (he ▸ hx2) hx1
  have hcb : (pos.getD c (0, 0)).1 = (pos.getD b (0, 0)).1 := by
    rw [he, hba]
  exact le_trans (hy2 hcb) (hy1 hba)

theorem lbStep_eq_or (pos : List Point) (m v : Nat) :
    lbStep pos m v = m ∨ lbStep pos m v = v := by
  unfold lbStep
  split_ifs <;> simp

theorem lbStep_rel_left (pos : List Point) (m v : Nat) : lbRel pos (lbStep pos m v) m := by
  unfold lbStep
  split_ifs with h1 h2 h3
  · exact ⟨le_of_lt h1, fun he => absurd h1 (by rw [he]; exact lt_irrefl _)⟩
  · exact lbRel_refl pos m
  · exact lbRel_refl pos m
  · have hx : (pos.getD v (0, 0)).1 = (pos.getD m (0, 0)).1 :=
      le_antisymm (not_lt.mp h2) (not_lt.mp h1)
    exact ⟨le_of_eq hx, fun _ => not_lt.mp h3⟩

theorem lbStep_rel_right (pos : List Point) (m v : Nat) : lbRel pos (lbStep pos m v) v := by
  unfold lbStep
  split_ifs with h1 h2 h3
  · exact lbRel_refl pos v
  · exact ⟨le_of_lt h2, fun he => absurd h2 (by rw [he]; exact lt_irrefl _)⟩
  · have hx : (pos.getD m (0, 0)).1 = (pos.getD v (0, 0)).1 :=
      le_antisymm (not_lt.mp h1) (not_lt.mp h2)
    exact ⟨le_of_eq hx, fun _ => le_of_lt h3⟩
  · exact lbRel_refl pos v

theorem lb_foldl_spec (pos : List Point) :
    ∀ (t : List Nat) (m : Nat),
      (t.foldl (lbStep pos) m = m ∨ t.foldl (lbStep pos) m ∈ t) ∧
      lbRel pos (t.foldl (lbStep pos) m) m ∧
      ∀ i ∈ t, lbRel pos (t.foldl (lbStep pos) m) i := by
  intro t
  induction t with
  | nil => exact fun m => ⟨Or.inl rfl, lbRel_refl pos m, by simp⟩
  | cons v t ih =>
    intro m
    obtain ⟨hmem, hrel, hall⟩ := ih (lbStep pos m v)
    have hfold : (v :: t).foldl (lbStep pos) m = t.foldl (lbStep pos) (lbStep pos m v) := rfl
    rw [hfold]
    refine ⟨?_, lbRel_trans hrel (lbStep_rel_left pos m v), ?_⟩
    · rcases hmem with hm | hm
      · rcases lbStep_eq_or pos m v with hs | hs
        · exact Or.inl (hm.trans hs)
        · exact Or.inr (by rw [hm, hs]; exact List.mem_cons_self v t)
      · exact Or.inr (List.mem_cons_of_mem v hm)
    · intro i hi
      rcases List.mem_cons.mp hi with hiv | hit
      · subst hiv
        exact lbRel_trans hrel (lbStep_rel_right pos m i)
      · exact hall i hit

/-- C2 amended: for every non-empty remaining-vertices list the start vertex
returned by `left_bottom_vertex` is one of the remaining vertices, has the
smallest x-coordinate, and among vertices sharing that smallest x-coordinate
it has the **largest** y-coordinate (the source keeps the accumulator when
the new vertex's y is strictly smaller). -/
theorem c2_left_bottom_min_x_max_y (pos : List Point) (act : List Nat) (r : Nat)
    (h : left_bottom_vertex pos act = some r) :
    r ∈ act ∧
    ∀ i ∈ act, (pos.getD r (0, 0)).1 ≤ (pos.getD i (0, 0)).1 ∧
      ((pos.getD i (0, 0)).1 = (pos.getD r (0, 0)).1 →
        (pos.getD i (0, 0)).2 ≤ (pos.getD r (0, 0)).2) := by
  match act with
  | [] => exact absurd h (by simp [left_bottom_vertex])
  | hd :: t =>
    have hr : r = t.foldl (lbStep pos) hd := by
      have : left_bottom_vertex pos (hd :: t) = some (t.foldl (lbStep pos) hd) := rfl
      rw [this] at h
      exact (Option.some_inj.mp h).symm
    obtain ⟨hmem, hrel, hall⟩ := lb_foldl_spec pos t hd
    subst hr
    constructor
    · rcases hmem with hm | hm
      · rw [hm]; exact List.mem_cons_self hd t
      · exact List.mem_cons_of_mem hd hm
    · intro i hi
      rcases List.mem_cons.mp hi with hih | hit
      · subst hih; exact hrel
      · exact hall i hit

/-- C2 amended witness: on the two vertices `(0,0)`, `(0,1)` the returned
start vertex (index 1) belongs to the list, has minimal x, and has the
largest y among the x-ties. -/
theorem c2_left_bottom_min_x_max_y_witness :
    1 ∈ [0, 1] ∧
    ∀ i ∈ [0, 1],
      (([((0 : ℚ), (0 : ℚ)), ((0 : ℚ), (1 : ℚ))].getD 1 (0, 0)).1 ≤
        ([((0 : ℚ), (0 : ℚ)), ((0 : ℚ), (1 : ℚ))].getD i (0, 0)).1) ∧
      (([((0 : ℚ), (0 : ℚ)), ((0 : ℚ), (1 : ℚ))].getD i (0, 0)).1 =
          ([((0 : ℚ), (0 : ℚ)), ((0 : ℚ), (1 : ℚ))].getD 1 (0, 0)).1 →
        ([((0 : ℚ), (0 : ℚ)), ((0 : ℚ), (1 : ℚ))].getD i (0, 0)).2 ≤
          ([((0 : ℚ), (0 : ℚ)), ((0 : ℚ), (1 : ℚ))].getD 1 (0, 0)).2) :=
  c2_left_bottom_min_x_max_y [((0 : ℚ), (0 : ℚ)), ((0 : ℚ), (1 : ℚ))] [0, 1] 1
    (by with_unfolding_all decide)

/-! ### C3 amended: bezier postconditions with the corrected length bound -/

theorem findNextT_gt (a c b : Point) (minLen t : ℚ) (ht : t < 1) :
    ∀ (fuel : Nat) (step : ℚ), 0 < step → t < findNextT a c b minLen t fuel step := by
  intro fuel
  induction fuel with
  | zero =>
    intro step hs
    exact lt_min ht (lt_add_of_pos_right t hs)
  | succ n ih =>
    intro step hs
    unfold findNextT
    split
    · exact lt_min ht (lt_add_of_pos_right t hs)
    · exact ih (2 * step) (by linarith)

theorem bezierAux_head (a c b : Point) (minLen : ℚ) (maxSeg : Nat) :
    ∀ (fuel : Nat) (t : ℚ) (count : Nat) (acc : List Point), acc ≠ [] →
      (bezierAux a c b minLen maxSeg fuel t count acc).head? = acc.head? := by
  intro fuel
  induction fuel with
  | zero => intro t count acc _; rfl
  | succ n ih =>
    intro t count acc hne
    unfold bezierAux
    split
    · split
      · rw [ih _ _ _ (by simp)]
        cases acc with
        | nil => exact absurd rfl hne
        | cons x xs => simp
      · rfl
    · rfl

theorem bezierAux_le_length (a c b : Point) (minLen : ℚ) (maxSeg : Nat) :
    ∀ (fuel : Nat) (t : ℚ) (count : Nat) (acc : List Point),
      acc.length ≤ (bezierAux a c b minLen maxSeg fuel t count acc).length := by
  intro fuel
  induction fuel with
  | zero => intro t count acc; exact le_refl _
  | succ n ih =>
    intro t count acc
    unfold bezierAux
    split
    · split
      · calc acc.length ≤ (acc ++ [quadratic_bezier_point a c b
              (findNextT a c b minLen t 100 (1 / 10))]).length := by simp
          _ ≤ _ := ih _ _ _
      · exact le_refl _
    · exact le_refl _

theorem bezierAux_length_le (a c b : Point) (minLen : ℚ) (maxSeg : Nat) :
    ∀ (fuel : Nat) (t : ℚ) (count : Nat) (acc : List Point), count ≤ maxSeg →
      (bezierAux a c b minLen maxSeg fuel t count acc).length ≤
        acc.length + (maxSeg - count) := by
  intro fuel
  induction fuel with
  | zero => intro t count acc _; exact Nat.le_add_right _ _
  | succ n ih =>
    intro t count acc hc
    unfold bezierAux
    split
    · rename_i hguard
      split
      · have hrec := ih (findNextT a c b minLen t 100 (1 / 10)) (count + 1)
          (acc ++ [quadratic_bezier_point a c b (findNextT a c b minLen t 100 (1 / 10))])
          (by omega)
        simp only [List.length_append, List.length_cons, List.length_nil] at hrec
        have hlt : count < maxSeg := hguard.2
        omega
      · omega
    · omega

/-- C3 amended: for positive minimum chord length and a positive segment cap,
the first output point is exactly `a`, the last output point is within `1e-6`
of `b` (squared distance at most `1/10^12`), and the number of output points
lies between 2 and `max_segments + 2`: the force-append of `b` can add a
point beyond the `max_segments + 1` accepted points, which is what the
counterexample exhibits. -/
theorem c3_bezier_postconditions (a c b : Point) (minLen : ℚ) (maxSeg : Nat)
    (_hminLen : 0 < minLen) (hmaxSeg : 0 < maxSeg) :
    (adaptive_bezier_segments a c b minLen maxSeg).head? = some a ∧
    sqDist ((adaptive_bezier_segments a c b minLen maxSeg).getLastD (0, 0)) b ≤ 1 / 10 ^ 12 ∧
    2 ≤ (adaptive_bezier_segments a c b minLen maxSeg).length ∧
    (adaptive_bezier_segments a c b minLen maxSeg).length ≤ maxSeg + 2 := by
  have hnt : (0 : ℚ) < findNextT a c b minLen 0 100 (1 / 10) :=
    findNextT_gt a c b minLen 0 (by norm_num) 100 (1 / 10) (by norm_num)
  have hpts1 : bezierAux a c b minLen maxSeg (maxSeg + 1) 0 0 [a] =
      bezierAux a c b minLen maxSeg maxSeg (findNextT a c b minLen 0 100 (1 / 10)) 1
        ([a] ++ [quadratic_bezier_point a c b (findNextT a c b minLen 0 100 (1 / 10))]) := by
    conv_lhs => rw [bezierAux]
    rw [if_pos ⟨by norm_num, hmaxSeg⟩, if_pos hnt]
  have hhead : (bezierAux a c b minLen maxSeg (maxSeg + 1) 0 0 [a]).head? = some a := by
    rw [bezierAux_head a c b minLen maxSeg _ _ _ _ (by simp)]
    rfl
  have hlen2 : 2 ≤ (bezierAux a c b minLen maxSeg (maxSeg + 1) 0 0 [a]).length := by
    rw [hpts1]
    calc (2 : Nat) = ([a] ++ [quadratic_bezier_point a c b
          (findNextT a c b minLen 0 100 (1 / 10))]).length := by simp
      _ ≤ _ := bezierAux_le_length a c b minLen maxSeg _ _ _ _
  have hlenle : (bezierAux a c b minLen maxSeg (maxSeg + 1) 0 0 [a]).length ≤ maxSeg + 1 := by
    have h := bezierAux_length_le a c b minLen maxSeg (maxSeg + 1) 0 0 [a] (Nat.zero_le _)
    simp only [List.length_cons, List.length_nil, Nat.sub_zero] at h
    omega
  have hne : bezierAux a c b minLen maxSeg (maxSeg + 1) 0 0 [a] ≠ [] := by
    intro hcontra
    rw [hcontra] at hlen2
    simp at hlen2
  by_cases hlast :
      1 / 10 ^ 12 < sqDist ((bezierAux a c b minLen maxSeg (maxSeg + 1) 0 0 [a]).getLastD (0, 0)) b
  · simp only [adaptive_bezier_segments, if_pos hlast]
    refine ⟨?_, ?_, ?_, ?_⟩
    · rw [List.head?_append, hhead]
      rfl
    · rw [List.getLastD_concat]
      have : sqDist b b = 0 := by simp [sqDist]
      rw [this]
      norm_num
    · simp only [List.length_append, List.length_cons, List.length_nil]
      omega
    · simp only [List.length_append, List.length_cons, List.length_nil]
      omega
  · simp only [adaptive_bezier_segments, if_neg hlast]
    exact ⟨hhead, not_lt.mp hlast, hlen2, by omega⟩

/-- C3 amended witness: the counterexample input itself satisfies the
corrected postconditions. -/
theorem c3_bezier_postconditions_witness :
    (0 : ℚ) < 1 / 2 ∧ 0 < 1 ∧
    (adaptive_bezier_segments ((0 : ℚ), (0 : ℚ)) (1, 1) (2, 0) (1 / 2) 1).head? =
      some ((0 : ℚ), (0 : ℚ)) ∧
    sqDist ((adaptive_bezier_segments ((0 : ℚ), (0 : ℚ)) (1, 1) (2, 0) (1 / 2) 1).getLastD
      (0, 0)) (2, 0) ≤ 1 / 10 ^ 12 ∧
    2 ≤ (adaptive_bezier_segments ((0 : ℚ), (0 : ℚ)) (1, 1) (2, 0) (1 / 2) 1).length ∧
    (adaptive_bezier_segments ((0 : ℚ), (0 : ℚ)) (1, 1) (2, 0) (1 / 2) 1).length ≤ 1 + 2 := by
  refine ⟨by norm_num, by norm_num, ?_⟩
  exact c3_bezier_postconditions ((0 : ℚ), (0 : ℚ)) (1, 1) (2, 0) (1 / 2) 1
    (by norm_num) (by norm_num)

/-! ### C5 amended: degenerate walls are merged into a self-loop, not excluded -/

theorem collectVertices_degenerate (wid : Nat) (a b : Point) (h : veq a b = true) :
    collectVertices [⟨wid, a, b⟩] = [a] := by
  simp [collectVertices, addVertex, h]

theorem graphOfWalls_degenerate (wid : Nat) (a b : Point) (h : veq a b = true) :
    graphOfWalls [⟨wid, a, b⟩] = ⟨[a], [[0, 0]], [0]⟩ := by
  unfold graphOfWalls
  rw [collectVertices_degenerate wid a b h]
  have hw : wallEdges [⟨wid, a, b⟩] [a] = [(0, 0)] := by
    simp [wallEdges, vertexIndex, List.findIdx_cons, veq_refl, h]
  rw [hw]
  rfl

theorem closed_walk_selfloop (p : Point) (fuel : Nat) (hf : 1 ≤ fuel) :
    closed_walk_from ⟨[p], [[0, 0]], [0]⟩ fuel 0 = some [0] := by
  match fuel, hf with
  | f + 1, _ =>
    have hnext : get_next ⟨[p], [[0, 0]], [0]⟩ 0 none = some (0, 0) := by
      simp [get_next, adjOf, best_by_kind, better_by_kind, posOf, psub, dot_perp, sub_self]
    have haux : closedWalkAux ⟨[p], [[0, 0]], [0]⟩ 0 (f + 1) 0 0 = some [] := by
      unfold closedWalkAux
      rw [if_pos (by simp [posOf, veq_refl])]
    simp [closed_walk_from, hnext, haux]

theorem extract_cycles_degenerate (wid : Nat) (a b : Point) (h : veq a b = true) :
    extract_cycles [⟨wid, a, b⟩] = none := by
  unfold extract_cycles
  rw [graphOfWalls_degenerate wid a b h]
  have hwalk : closed_walk_from ⟨[a], [[0, 0]], [0]⟩ (fuelOf [⟨wid, a, b⟩]) 0 = some [0] :=
    closed_walk_selfloop a _ (by norm_num [fuelOf])
  show extractCyclesAux (fuelOf [⟨wid, a, b⟩]) ⟨[a], [[0, 0]], [0]⟩ (71 + 1) [] = none
  rw [extractCyclesAux]
  simp [left_bottom_vertex, hwalk, reduce_walk_id]

/-- C5 amended: a wall whose two endpoints lie within the 0.1 tolerance is
*not* excluded from graph construction — its endpoints merge into a single
vertex whose adjacency receives that vertex itself twice (a self-loop) — and
extraction of such a single-wall input fails (the traced walk degenerates to
one vertex and the first-edge removal reads the out-of-range `walk[1]`). -/
theorem c5_degenerate_wall_not_excluded (wid : Nat) (a b : Point) (h : veq a b = true) :
    (graphOfWalls [⟨wid, a, b⟩]).adj = [[0, 0]] ∧
    extract_rooms_from_screenscript [⟨wid, a, b⟩] = none := by
  refine ⟨by rw [graphOfWalls_degenerate wid a b h], ?_⟩
  unfold extract_rooms_from_screenscript extractRoomIdLists
  rw [extract_cycles_degenerate wid a b h]
  rfl

/-- C5 amended witness: the concrete degenerate wall `(0,0)-(1/20,0)`. -/
theorem c5_degenerate_wall_not_excluded_witness :
    veq ((0 : ℚ), (0 : ℚ)) (1 / 20, 0) = true ∧
    (graphOfWalls [⟨7, (0, 0), (1 / 20, 0)⟩]).adj = [[0, 0]] ∧
    extract_rooms_from_screenscript [⟨7, (0, 0), (1 / 20, 0)⟩] = none :=
  ⟨by with_unfolding_all decide,
   c5_degenerate_wall_not_excluded 7 (0, 0) (1 / 20, 0) (by with_unfolding_all decide)⟩

/-! ### C7: adjacency symmetry is an invariant of extraction -/

theorem getD_set_self {α : Type} (l : List α) (i : Nat) (x d : α) (h : i < l.length) :
    (l.set i x).getD i d = x := by
  simp [List.getD_eq_getElem?_getD, List.getElem?_set_self h]

theorem getD_set_ne {α : Type} (l : List α) (i j : Nat) (x d : α) (h : i ≠ j) :
    (l.set i x).getD j d = l.getD j d := by
  simp [List.getD_eq_getElem?_getD, List.getElem?_set_ne h]

theorem getD_out_of_range {α : Type} (l : List α) (i : Nat) (d : α) (h : l.length ≤ i) :
    l.getD i d = d := by
  simp [List.getD_eq_getElem?_getD, List.getElem?_eq_none h]

/-- The adjacency-symmetry invariant of the spec: `v2` is in `v1`'s adjacency
iff `v1` is in `v2`'s adjacency. -/
def symAdj (g : GState) : Prop := ∀ i j : Nat, j ∈ adjOf g i ↔ i ∈ adjOf g j

/-- Deduplication invariant: distinct stored vertices are never within
tolerance of each other. -/
def pairwiseFar (g : GState) : Prop :=
  ∀ i j : Nat, i < g.pos.length → j < g.pos.length → i ≠ j →
    veq (posOf g i) (posOf g j) = false

/-- Well-formedness carried through extraction: one adjacency list per
vertex, pairwise-far positions, and symmetric adjacency. -/
def wfG (g : GState) : Prop := g.adj.length = g.pos.length ∧ pairwiseFar g ∧ symAdj g

theorem mem_adjOf_lt {g : GState} (hlen : g.adj.length = g.pos.length)
    (hsym : symAdj g) {i k : Nat} (hk : k ∈ adjOf g i) : k < g.pos.length := by
  by_contra hge
  push_neg at hge
  have hempty : adjOf g k = [] := by
    unfold adjOf
    exact getD_out_of_range _ _ _ (by omega)
  have hmem : i ∈ adjOf g k := (hsym i k).mp hk
  rw [hempty] at hmem
  exact absurd hmem (List.not_mem_nil i)

/-- Membership in a single adjacency-list overwrite. -/
theorem mem_getD_set (adj : List (List Nat)) (a : Nat) (L : List Nat) (p q : Nat)
    (ha : a < adj.length) :
    q ∈ (adj.set a L).getD p [] ↔
      (p = a ∧ q ∈ L) ∨ (p ≠ a ∧ q ∈ adj.getD p []) := by
  by_cases hpa : p = a
  · subst hpa
    rw [getD_set_self _ _ _ _ ha]
    simp
  · rw [getD_set_ne _ _ _ _ _ (fun hc => hpa hc.symm)]
    simp [hpa]

/-- Removing by tolerance equality against an in-range target removes exactly
the target index, provided the list's members are in range and positions are
pairwise far. -/
theorem mem_filter_veq {g : GState} (hfar : pairwiseFar g) {L : List Nat}
    (hL : ∀ x ∈ L, x < g.pos.length) {j : Nat} (hj : j < g.pos.length) (q : Nat) :
    q ∈ L.filter (fun k => !(veq (posOf g k) (posOf g j))) ↔ q ∈ L ∧ q ≠ j := by
  rw [List.mem_filter]
  constructor
  · rintro ⟨hqL, hb⟩
    refine ⟨hqL, fun hqj => ?_⟩
    subst hqj
    rw [veq_refl] at hb
    simp at hb
  · rintro ⟨hqL, hqj⟩
    refine ⟨hqL, ?_⟩
    rw [hfar q j (hL q hqL) hj hqj]
    rfl

theorem remove_edge_pos (g : GState) (i j : Nat) : (remove_edge g i j).pos = g.pos := rfl

theorem remove_edge_adj_length (g : GState) (i j : Nat) :
    (remove_edge g i j).adj.length = g.adj.length := by
  simp [remove_edge]

/-- Projections of an explicitly built state. -/
theorem adjOf_mk (P : List Point) (A : List (List Nat)) (C : List Nat) (k : Nat) :
    adjOf { pos := P, adj := A, act := C } k = A.getD k [] := rfl

theorem posOf_mk (P : List Point) (A : List (List Nat)) (C : List Nat) (k : Nat) :
    posOf { pos := P, adj := A, act := C } k = P.getD k (0, 0) := rfl

/-- Membership in the adjacency lists after `remove_edge` with in-range
endpoints: exactly the ordered pairs `(i, j)` and `(j, i)` disappear. -/
theorem mem_adjOf_remove_edge {g : GState} (hwf : wfG g) {i j : Nat}
    (hi : i < g.pos.length) (hj : j < g.pos.length) (p q : Nat) :
    q ∈ adjOf (remove_edge g i j) p ↔
      q ∈ adjOf g p ∧ ¬(p = i ∧ q = j) ∧ ¬(p = j ∧ q = i) := by
  obtain ⟨hlen, hfar, hsym⟩ := hwf
  have hbound : ∀ r : Nat, ∀ x ∈ adjOf g r, x < g.pos.length :=
    fun r x hx => mem_adjOf_lt hlen hsym hx
  have hilen : i < g.adj.length := by omega
  have hstep1 : ∀ p q : Nat,
      q ∈ (g.adj.set i ((adjOf g i).filter
          (fun k => !(veq (posOf g k) (posOf g j))))).getD p [] ↔
        (p = i ∧ q ∈ adjOf g i ∧ q ≠ j) ∨ (p ≠ i ∧ q ∈ adjOf g p) := by
    intro p q
    rw [mem_getD_set _ _ _ _ _ hilen, mem_filter_veq hfar (hbound i) hj]
    rfl
  have hjlen : j < (g.adj.set i ((adjOf g i).filter
      (fun k => !(veq (posOf g k) (posOf g j))))).length := by
    simp
    omega
  have hb1 : ∀ x ∈ (g.adj.set i ((adjOf g i).filter
      (fun k => !(veq (posOf g k) (posOf g j))))).getD j [], x < g.pos.length := by
    intro x hx
    rw [hstep1 j x] at hx
    rcases hx with ⟨_, hx, _⟩ | ⟨_, hx⟩
    · exact hbound i x hx
    · exact hbound j x hx
  show q ∈ adjOf { pos := g.pos, adj := _, act := g.act } p ↔ _
  rw [adjOf_mk, mem_getD_set _ _ _ _ _ hjlen, mem_filter_veq hfar hb1 hi,
    hstep1 p q, hstep1 j q]
  by_cases hpj : p = j
  · subst hpj
    by_cases hji : p = i
    · subst hji
      tauto
    · tauto
  · by_cases hpi : p = i
    · subst hpi
      tauto
    · tauto

theorem remove_edge_wfG {g : GState} (hwf : wfG g) {i j : Nat}
    (hi : i < g.pos.length) (hj : j < g.pos.length) : wfG (remove_edge g i j) := by
  obtain ⟨hlen, hfar, hsym⟩ := hwf
  refine ⟨by rw [remove_edge_adj_length, remove_edge_pos, hlen], hfar, ?_⟩
  intro p q
  rw [mem_adjOf_remove_edge ⟨hlen, hfar, hsym⟩ hi hj p q,
    mem_adjOf_remove_edge ⟨hlen, hfar, hsym⟩ hi hj q p]
  have hs := hsym p q
  tauto

theorem wfG_act_update (g : GState) (A : List Nat) (hwf : wfG g) :
    wfG { pos := g.pos, adj := g.adj, act := A } := hwf

theorem head?_mem_list {α : Type} {l : List α} {x : α} (h : l.head? = some x) : x ∈ l := by
  cases l with
  | nil => simp at h
  | cons a t =>
    rw [List.head?_cons] at h
    injection h with h
    subst h
    exact List.mem_cons_self a t

theorem removeFilamentAux_wfG :
    ∀ (fuel : Nat) (g : GState) (c : Option Nat), wfG g →
      (∀ v : Nat, c = some v → v < g.pos.length) →
      wfG (removeFilamentAux fuel g c) := by
  intro fuel
  induction fuel with
  | zero => intro g c hwf _; cases c <;> exact hwf
  | succ f ih =>
    intro g c hwf hc
    cases c with
    | none => exact hwf
    | some v =>
      have hv : v < g.pos.length := hc v rfl
      unfold removeFilamentAux
      split
      · cases hhead : (adjOf g v).head? with
        | some nx =>
          have hnx : nx < g.pos.length :=
            mem_adjOf_lt hwf.1 hwf.2.2 (head?_mem_list hhead)
          have hwf2 : wfG (remove_edge
              { pos := g.pos, adj := g.adj, act := without_vertex g.pos v g.act } v nx) :=
            remove_edge_wfG (wfG_act_update g _ hwf) hv hnx
          exact ih _ _ hwf2 (fun x hx => by
            injection hx with hx
            subst hx
            exact hnx)
        | none => exact wfG_act_update g _ hwf
      · exact hwf

/-! #### Well-formedness of the initial graph -/

/-- Pairwise-far positions in a raw vertex list. -/
def farList (vs : List Point) : Prop :=
  ∀ i j : Nat, i < vs.length → j < vs.length → i ≠ j →
    veq (vs.getD i (0, 0)) (vs.getD j (0, 0)) = false

theorem getD_append_left {α : Type} (l1 l2 : List α) (i : Nat) (d : α) (h : i < l1.length) :
    (l1 ++ l2).getD i d = l1.getD i d := by
  simp [List.getD_eq_getElem?_getD, List.getElem?_append_left h]

theorem getD_concat_self {α : Type} (l : List α) (x d : α) :
    (l ++ [x]).getD l.length d = x := by
  simp [List.getD_eq_getElem?_getD, List.getElem?_append_right (le_refl l.length)]

theorem getD_mem {α : Type} (l : List α) (i : Nat) (d : α) (h : i < l.length) :
    l.getD i d ∈ l := by
  rw [List.getD_eq_getElem?_getD, List.getElem?_eq_getElem h]
  exact List.getElem_mem h

theorem farList_append {vs : List Point} {p : Point} (hP : farList vs)
    (hnew : ∀ v ∈ vs, veq v p = false) : farList (vs ++ [p]) := by
  intro i j hi hj hne
  simp only [List.length_append, List.length_cons, List.length_nil] at hi hj
  by_cases hi2 : i < vs.length
  · by_cases hj2 : j < vs.length
    · rw [getD_append_left _ _ _ _ hi2, getD_append_left _ _ _ _ hj2]
      exact hP i j hi2 hj2 hne
    · have hj3 : j = vs.length := by omega
      subst hj3
      rw [getD_append_left _ _ _ _ hi2, getD_concat_self]
      exact hnew _ (getD_mem _ _ _ hi2)
  · have hi3 : i = vs.length := by omega
    subst hi3
    have hj2 : j < vs.length := by omega
    rw [getD_concat_self, getD_append_left _ _ _ _ hj2, veq_comm]
    exact hnew _ (getD_mem _ _ _ hj2)

theorem farList_addVertex {vs : List Point} (p : Point) (h : farList vs) :
    farList (addVertex vs p) := by
  unfold addVertex
  split
  · exact h
  · rename_i hany
    have hany2 : vs.any (fun v => veq v p) = false := by simpa using hany
    refine farList_append h ?_
    intro v hv
    have := List.any_eq_false.mp hany2 v hv
    simpa using this

theorem farList_collect (walls : List Wall) : farList (collectVertices walls) := by
  unfold collectVertices
  have key : ∀ (ws : List Wall) (vs : List Point), farList vs →
      farList (ws.foldl (fun vs w => addVertex (addVertex vs w.a) w.b) vs) := by
    intro ws
    induction ws with
    | nil => intro vs h; exact h
    | cons w t ih =>
      intro vs h
      exact ih _ (farList_addVertex w.b (farList_addVertex w.a h))
  apply key
  intro i j hi _ _
  simp at hi

theorem addVertex_subset (vs : List Point) (p : Point) : vs ⊆ addVertex vs p := by
  unfold addVertex
  split
  · exact fun x hx => hx
  · exact fun x hx => List.mem_append_left _ hx

theorem addVertex_covers (vs : List Point) (p : Point) :
    ∃ x ∈ addVertex vs p, veq x p = true := by
  unfold addVertex
  split
  · rename_i hany
    obtain ⟨x, hx, hp⟩ := List.any_eq_true.mp hany
    exact ⟨x, hx, hp⟩
  · exact ⟨p, List.mem_append_right _ (by simp), veq_refl p⟩

theorem collect_fold_subset : ∀ (ws : List Wall) (vs : List Point),
    vs ⊆ ws.foldl (fun vs w => addVertex (addVertex vs w.a) w.b) vs := by
  intro ws
  induction ws with
  | nil => intro vs x hx; exact hx
  | cons w t ih =>
    intro vs x hx
    exact ih _ (addVertex_subset _ w.b (addVertex_subset vs w.a hx))

theorem collect_covers (walls : List Wall) :
    ∀ w ∈ walls, (∃ x ∈ collectVertices walls, veq x w.a = true) ∧
      (∃ x ∈ collectVertices walls, veq x w.b = true) := by
  unfold collectVertices
  have key : ∀ (ws : List Wall) (vs : List Point), ∀ w ∈ ws,
      (∃ x ∈ ws.foldl (fun vs w => addVertex (addVertex vs w.a) w.b) vs, veq x w.a = true) ∧
      (∃ x ∈ ws.foldl (fun vs w => addVertex (addVertex vs w.a) w.b) vs, veq x w.b = true) := by
    intro ws
    induction ws with
    | nil => intro vs w hw; simp at hw
    | cons w0 t ih =>
      intro vs w hw
      rcases List.mem_cons.mp hw with hw0 | hwt
      · subst hw0
        have hsub := collect_fold_subset t (addVertex (addVertex vs w.a) w.b)
        constructor
        · obtain ⟨x, hx, hveq⟩ := addVertex_covers vs w.a
          exact ⟨x, hsub (addVertex_subset _ w.b hx), hveq⟩
        · obtain ⟨x, hx, hveq⟩ := addVertex_covers (addVertex vs w.a) w.b
          exact ⟨x, hsub hx, hveq⟩
      · exact ih _ w hwt
  exact fun w hw => key walls [] w hw

theorem vertexIndex_lt (vs : List Point) (p : Point) (h : ∃ x ∈ vs, veq x p = true) :
    vertexIndex vs p < vs.length :=
  List.findIdx_lt_length_of_exists h

/-- Symmetry of a raw adjacency table. -/
def symA (adj : List (List Nat)) : Prop :=
  ∀ i j : Nat, j ∈ adj.getD i [] ↔ i ∈ adj.getD j []

theorem getD_replicate_nil (n i : Nat) :
    (List.replicate n ([] : List Nat)).getD i [] = [] := by
  rw [List.getD_eq_getElem?_getD, List.getElem?_replicate]
  split <;> rfl

theorem symA_replicate (n : Nat) : symA (List.replicate n []) := by
  intro i j
  rw [getD_replicate_nil, getD_replicate_nil]
  simp

theorem addEdge_length (adj : List (List Nat)) (e : Nat × Nat) :
    (addEdge adj e).length = adj.length := by
  simp [addEdge]

theorem mem_addEdge (adj : List (List Nat)) (e : Nat × Nat)
    (h1 : e.1 < adj.length) (h2 : e.2 < adj.length) (p q : Nat) :
    q ∈ (addEdge adj e).getD p [] ↔
      q ∈ adj.getD p [] ∨ (p = e.1 ∧ q = e.2) ∨ (p = e.2 ∧ q = e.1) := by
  obtain ⟨x, y⟩ := e
  simp only [] at h1 h2 ⊢
  have hstep : ∀ p q : Nat, q ∈ (adj.set x (adj.getD x [] ++ [y])).getD p [] ↔
      (p = x ∧ (q ∈ adj.getD x [] ∨ q = y)) ∨ (p ≠ x ∧ q ∈ adj.getD p []) := by
    intro p q
    rw [mem_getD_set _ _ _ _ _ h1]
    simp [List.mem_append]
  unfold addEdge
  rw [mem_getD_set _ _ _ _ _ (by simpa using h2), List.mem_append,
    hstep p q, hstep y q]
  simp only [List.mem_singleton]
  by_cases hpy : p = y
  · subst hpy
    by_cases hxy : p = x
    · subst hxy
      tauto
    · tauto
  · by_cases hpx : p = x
    · subst hpx
      tauto
    · tauto

theorem symA_addEdge {adj : List (List Nat)} (hs : symA adj) {e : Nat × Nat}
    (h1 : e.1 < adj.length) (h2 : e.2 < adj.length) : symA (addEdge adj e) := by
  intro p q
  rw [mem_addEdge adj e h1 h2 p q, mem_addEdge adj e h1 h2 q p]
  have := hs p q
  tauto

theorem buildAdj_symA_aux : ∀ (edges : List (Nat × Nat)) (adj : List (List Nat)),
    symA adj → (∀ e ∈ edges, e.1 < adj.length ∧ e.2 < adj.length) →
    symA (edges.foldl addEdge adj) := by
  intro edges
  induction edges with
  | nil => intro adj hs _; exact hs
  | cons e t ih =>
    intro adj hs hb
    have he := hb e (List.mem_cons_self e t)
    rw [List.foldl_cons]
    apply ih
    · exact symA_addEdge hs he.1 he.2
    · intro e2 he2
      rw [addEdge_length]
      exact hb e2 (List.mem_cons_of_mem _ he2)

theorem buildAdj_length (n : Nat) (edges : List (Nat × Nat)) :
    (buildAdj n edges).length = n := by
  unfold buildAdj
  have key : ∀ (es : List (Nat × Nat)) (adj : List (List Nat)),
      (es.foldl addEdge adj).length = adj.length := by
    intro es
    induction es with
    | nil => intro adj; rfl
    | cons e t ih => intro adj; rw [List.foldl_cons, ih, addEdge_length]
  rw [key]
  simp

theorem wfG_graphOfWalls (walls : List Wall) : wfG (graphOfWalls walls) := by
  refine ⟨buildAdj_length _ _, farList_collect walls, ?_⟩
  have hcov := collect_covers walls
  have hb : ∀ e ∈ wallEdges walls (collectVertices walls),
      e.1 < (List.replicate (collectVertices walls).length ([] : List Nat)).length ∧
      e.2 < (List.replicate (collectVertices walls).length ([] : List Nat)).length := by
    intro e he
    rw [List.length_replicate]
    obtain ⟨w, hw, he2⟩ := List.mem_map.mp he
    obtain ⟨hca, hcb⟩ := hcov w hw
    constructor
    · rw [← he2]
      exact vertexIndex_lt _ _ hca
    · rw [← he2]
      exact vertexIndex_lt _ _ hcb
  exact buildAdj_symA_aux (wallEdges walls (collectVertices walls))
    (List.replicate (collectVertices walls).length []) (symA_replicate _) hb

/-- Graph states reachable during extraction: the initially constructed graph,
and the results of the `remove_edge` / `remove_filament_at` steps that
`extract_cycles` performs.  The index bounds mirror the actual calls: the
walk's vertices all come from the remaining-vertices list or an adjacency
list, so they index into the deduplicated vertex store. -/
inductive ReachG (walls : List Wall) : GState → Prop
  | init : ReachG walls (graphOfWalls walls)
  | edge (g : GState) (i j : Nat) (hg : ReachG walls g)
      (hi : i < g.pos.length) (hj : j < g.pos.length) :
      ReachG walls (remove_edge g i j)
  | filament (g : GState) (fuel v : Nat) (hg : ReachG walls g)
      (hv : v < g.pos.length) :
      ReachG walls (remove_filament_at g fuel v)

/-- C7: adjacency symmetry is an invariant of every graph state reachable
during extraction — it holds after initial graph construction and is
preserved by every `remove_edge` and `remove_filament_at` step. -/
theorem c7_adjacency_symmetry (walls : List Wall) (g : GState)
    (h : ReachG walls g) : symAdj g := by
  have hwf : wfG g := by
    induction h with
    | init => exact wfG_graphOfWalls walls
    | edge g i j hg hi hj ih => exact remove_edge_wfG ih hi hj
    | filament g fuel v hg hv ih =>
      exact removeFilamentAux_wfG fuel g (some v) ih
        (fun x hx => by injection hx with hx; subst hx; exact hv)
  exact hwf.2.2

/-- C7 witness: the initially constructed graph of the unit square has
symmetric adjacency. -/
theorem c7_adjacency_symmetry_witness : symAdj (graphOfWalls squareWalls) :=
  c7_adjacency_symmetry squareWalls (graphOfWalls squareWalls) ReachG.init
